import Mathlib

/-!
# Verification of the byte-statistics engine

Shallow embedding of the `compute_*` functions of `byte-stats-analyzer.py`
and proofs of the specification claims about them.

Conventions of the embedding:
* A byte buffer is a `List (Fin 256)`, mirroring the `uint8` numpy array the
  script builds with `np.frombuffer(file_bytes, dtype=np.uint8)`.
* Exact rational/real arithmetic stands for numpy float arithmetic; `Real.logb 2`
  stands for `np.log2` and `Real.sqrt` for the square root inside `np.std`.
* Python code that raises an exception is embedded as an `Option`-valued
  function returning `none` (in this file: `int(NaN)` raising `ValueError`),
  and a float `NaN` stored in the output is embedded as `none` in an
  `Option`-valued field.
* `np.argsort` uses numpy's default quicksort (introsort), which is *not*
  stable: the relative order of equal-key entries is unspecified.  Its
  contract is therefore modelled relationally by `IsArgsortBy` (any
  key-ascending permutation of the input indices), and the guaranteed
  properties of the ranked selections are proved for every admissible
  output.  The concrete record-building functions (`sortIdxsByCount`,
  `topPatterns`) fix one admissible deterministic refinement (a stable
  sort) solely so that the assembled record is a concrete value; no claim
  about tie order is derived from that choice.
-/

/-- A byte value, 0–255 (`uint8`). -/
abbrev Byte : Type := Fin 256

/-- An in-memory byte buffer, the engine's input. -/
abbrev ByteBuffer : Type := List Byte

/-! ## Numeric helpers shared by the analyzers -/

/-- Arithmetic mean of a list of rationals (`np.mean`); junk value `0` on `[]`
(numpy yields `NaN` there; every use below is guarded exactly as the source is,
or wrapped in `Option`). -/
def meanQ (l : List ℚ) : ℚ := l.sum / l.length

/-- Embedding of `np.median`: sort, take the middle element for odd length, the average of
the two middle elements for even length. -/
def medianQ (l : List ℚ) : ℚ :=
  let s := l.insertionSort (· ≤ ·)
  if l.length % 2 = 1 then s.getD (l.length / 2) 0
  else (s.getD (l.length / 2 - 1) 0 + s.getD (l.length / 2) 0) / 2

/-- Population variance (`np.std` squared): mean of squared deviations. -/
def varQ (l : List ℚ) : ℚ := (l.map (fun x => (x - meanQ l) ^ 2)).sum / l.length

/-- Python `int()` applied to a real number: truncation toward zero. -/
def truncQ (q : ℚ) : ℤ := if q < 0 then ⌈q⌉ else ⌊q⌋

/-- Embedding of `int(sqrt(q))` for `q ≥ 0`; equals `⌊Real.sqrt q⌋` (see
`sqrtFloorQ_eq_floor_sqrt` below).  Used to embed `int(np.std(x))`. -/
def sqrtFloorQ (q : ℚ) : ℕ := Nat.sqrt ⌊q⌋.toNat

/-- The byte values of a buffer, as rationals (numpy implicitly promotes
`uint8` to float inside `np.mean` / `np.std` / `scipy.stats.skew`). -/
def vals (buf : ByteBuffer) : List ℚ := buf.map (fun b => (b.val : ℚ))

/-! ## `compute_byte_occurrences` (frequency table and top/bottom 3) -/

/-- Occurrence count of byte value `v` in the buffer (one bucket of
`np.bincount(np_bytes, minlength=256)`). -/
def countOf (buf : ByteBuffer) (v : ℕ) : ℕ := buf.countP (fun b => b.val = v)

/-- Embedding of `np.bincount(np_bytes, minlength=256)`: the 256-bucket histogram. -/
def byteCounts (buf : ByteBuffer) : List ℕ := (List.range 256).map (countOf buf)

/-- Embedding of `total_bytes = byte_counts.sum()`. -/
def totalBytes (buf : ByteBuffer) : ℕ := (byteCounts buf).sum

/-- Embedding of `np.where(byte_counts > 0)[0]`: the byte values with nonzero count, in
ascending order. -/
def nonZeroIdxs (buf : ByteBuffer) : List ℕ :=
  (List.range 256).filter (fun v => 0 < countOf buf v)

/-- Embedding of `unique_bytes = np.unique(np_bytes).size`: the number of distinct byte
values present, i.e. the number of nonzero histogram buckets (the equality
with `buf.dedup.length` is proved below). -/
def uniqueBytes (buf : ByteBuffer) : ℕ := (nonZeroIdxs buf).length

/-- One admissible refinement of `np.argsort` over a list of indices keyed by
their counts, used only to build concrete record values: a stable sort
(ascending count, equal counts kept in the input's index order).  The real
`np.argsort` (default quicksort) leaves the tie order unspecified, so
guaranteed properties of the selections are stated against `IsArgsortBy`
below, never against this particular refinement. -/
def sortIdxsByCount (buf : ByteBuffer) (l : List ℕ) : List ℕ :=
  l.insertionSort (fun a b => countOf buf a ≤ countOf buf b)

/-- Embedding of `byte_counts.argsort()[-3:][::-1]`, paired with the counts: the top-3
byte values by descending count. -/
def most_common (buf : ByteBuffer) : List (ℕ × ℕ) :=
  (((sortIdxsByCount buf (List.range 256)).reverse.take 3)).map
    (fun v => (v, countOf buf v))

/-- Embedding of `non_zero_indices[np.argsort(byte_counts[non_zero_indices])[:3]]`, paired
with the counts: up to 3 nonzero-count byte values by ascending count. -/
def least_common (buf : ByteBuffer) : List (ℕ × ℕ) :=
  ((sortIdxsByCount buf (nonZeroIdxs buf)).take 3).map
    (fun v => (v, countOf buf v))

/-- The full result tuple of `compute_byte_occurrences` (the hex rendering of
the ranked entries is presentation and is not modelled). -/
def compute_byte_occurrences (buf : ByteBuffer) :
    List ℕ × ℕ × ℕ × List (ℕ × ℕ) × List (ℕ × ℕ) :=
  (byteCounts buf, totalBytes buf, uniqueBytes buf, most_common buf, least_common buf)

/-- The documented contract of `np.argsort` on an index list `l` keyed by
`key`: the output is a permutation of `l` that is ascending in `key`.  With
numpy's default `kind='quicksort'` (introsort) the sort is not stable, so
the relative order of equal-key indices is unspecified: every output
satisfying this contract is a possible program behavior, and nothing more
is guaranteed. -/
def IsArgsortBy (key : ℕ → ℕ) (l out : List ℕ) : Prop :=
  out.Perm l ∧ out.Pairwise (fun a b => key a ≤ key b)

/-- The least-common selection as a function of an `np.argsort` output `s`
over the nonzero byte values: `non_zero_indices[np.argsort(...)[:3]]`,
paired with the counts (`least_common` is this applied to the stable-sort
refinement). -/
def leastCommonOf (buf : ByteBuffer) (s : List ℕ) : List (ℕ × ℕ) :=
  (s.take 3).map (fun v => (v, countOf buf v))

/-! ## `compute_basic_stats` -/

/-- Embedding of `compute_basic_stats`: `int(np.mean)`, `int(np.median)`, `int(np.std)` of
the byte values.  On the empty buffer `np.mean` / `np.median` / `np.std`
return `NaN` and Python's `int(NaN)` raises `ValueError`; that raised
exception is embedded as `none`. -/
def compute_basic_stats (buf : ByteBuffer) : Option (ℤ × ℤ × ℤ) :=
  if buf.isEmpty then none
  else some (truncQ (meanQ (vals buf)), truncQ (medianQ (vals buf)),
             (sqrtFloorQ (varQ (vals buf)) : ℤ))

/-! ## `compute_rate_of_change` -/

/-- Embedding of `np.diff(np_bytes)` on a `uint8` array: adjacent differences computed in
`uint8` arithmetic, i.e. `(buffer[i+1] - buffer[i]) mod 256` — unsigned,
wrapping.  (For `x, y < 256`, `(256 + y - x) % 256` is that wrapped value.) -/
def u8diff (buf : ByteBuffer) : List ℕ :=
  (buf.zip buf.tail).map (fun p => (256 + p.2.val - p.1.val) % 256)

/-- Embedding of `compute_rate_of_change`: the truncated mean/median/std of `np.diff`, or
`(0, 0, 0)` when the difference array is empty. -/
def compute_rate_of_change (buf : ByteBuffer) : ℤ × ℤ × ℤ :=
  let d : List ℚ := (u8diff buf).map (fun n : ℕ => (n : ℚ))
  if 0 < d.length then
    (truncQ (meanQ d), truncQ (medianQ d), (sqrtFloorQ (varQ d) : ℤ))
  else (0, 0, 0)

/-- Modelled from the spec: the *signed* first-difference sequence
`diff[i] = buffer[i+1] - buffer[i]` that §4.6 of the spec (and claim C2)
describes.  This is what the source would compute if `np.diff` acted on a
signed array; it is used only to compare the spec's words against the code. -/
def signedDiffs (buf : ByteBuffer) : List ℤ :=
  (buf.zip buf.tail).map (fun p => (p.2.val : ℤ) - (p.1.val : ℤ))

/-- The positional description of the difference sequence the code actually
computes: `diff[i] = (buffer[i+1] - buffer[i]) mod 256` (unsigned `uint8`
wraparound), as rationals. -/
def wrappedDiffsQ (buf : ByteBuffer) : List ℚ :=
  (List.range (buf.length - 1)).map
    (fun i => (((256 + (buf.getD (i + 1) 0).val - (buf.getD i 0).val) % 256 : ℕ) : ℚ))

/-! ## `compute_entropy` -/

/-- Embedding of `compute_entropy(byte_counts, total_bytes)`: Shannon entropy over the
nonzero-probability buckets, 0 when `total = 0`.  The source filters
`probabilities > 0`; since `total > 0` in that branch, `c / total > 0` holds
exactly when `0 < c`, so the filter is taken on the counts. -/
noncomputable def compute_entropy (counts : List ℕ) (total : ℕ) : ℝ :=
  if 0 < total then
    -(((counts.filter (fun c => 0 < c)).map
        (fun c : ℕ => ((c : ℝ) / total) * Real.logb 2 ((c : ℝ) / total))).sum)
  else 0

/-! ## `compute_runs` -/

/-- Adjacent differences of a list of naturals (`np.diff(indices)`). -/
def adjDiffs (l : List ℕ) : List ℕ := (l.zip l.tail).map (fun p => p.2 - p.1)

/-- Embedding of `run_ends = np.where(np.diff(np_bytes) != 0)[0] + 1`: the indices `i + 1`
at which `buf[i] ≠ buf[i+1]`, in ascending order. -/
def runEnds (buf : ByteBuffer) : List ℕ :=
  ((List.range (buf.length - 1)).filter
    (fun i => buf.getD i 0 ≠ buf.getD (i + 1) 0)).map (· + 1)

/-- Embedding of `indices = np.concatenate(([0], run_ends, [np_bytes.size]))`. -/
def runBounds (buf : ByteBuffer) : List ℕ := 0 :: (runEnds buf ++ [buf.length])

/-- Embedding of `run_lengths = np.diff(indices)`. -/
def runLengthsList (buf : ByteBuffer) : List ℕ := adjDiffs (runBounds buf)

/-- Embedding of `compute_runs`: `(run_lengths.max(), run_lengths.mean())`, and `(0, 0)`
for the empty buffer. -/
def compute_runs (buf : ByteBuffer) : ℕ × ℚ :=
  if buf.isEmpty then (0, 0)
  else ((runLengthsList buf).foldr max 0,
        meanQ ((runLengthsList buf).map (fun n : ℕ => (n : ℚ))))

/-- Direct recursive definition of the maximal-run decomposition of a buffer
(lengths of the maximal runs of consecutive equal bytes, in order).  Stated
from the spec's description of the run decomposition; proved below to be
exactly what the diff-based `runLengthsList` computes. -/
def maximalRunLengths : ByteBuffer → List ℕ
  | [] => []
  | [_] => [1]
  | a :: b :: t =>
    if a = b then
      match maximalRunLengths (b :: t) with
      | [] => [1]
      | x :: xs => (x + 1) :: xs
    else 1 :: maximalRunLengths (b :: t)

/-! ## `compute_patterns` -/

/-- The big-endian packing of a 2-byte window:
`arr[:-1].astype(uint16) * 256 + arr[1:]`. -/
def pack2 (x y : Byte) : ℕ := x.val * 256 + y.val

/-- The big-endian packing of a 4-byte window used by the pattern analyzer:
`(a << 24) + (b << 16) + (c << 8) + d` on `uint32` (no overflow: the value is
below `2 ^ 32`). -/
def pack4 (a b c d : Byte) : ℕ :=
  a.val * 2 ^ 24 + b.val * 2 ^ 16 + c.val * 2 ^ 8 + d.val

/-- Big-endian unpacking of a 32-bit integer into its 4 bytes. -/
def unpack4 (n : ℕ) : ℕ × ℕ × ℕ × ℕ :=
  (n / 2 ^ 24 % 256, n / 2 ^ 16 % 256, n / 2 ^ 8 % 256, n % 256)

/-- Embedding of `patterns2`: all overlapping 2-byte windows, packed. -/
def patterns2 (buf : ByteBuffer) : List ℕ :=
  (buf.zip buf.tail).map (fun p => pack2 p.1 p.2)

/-- Embedding of `patterns4`: all overlapping 4-byte windows, packed big-endian. -/
def patterns4 (buf : ByteBuffer) : List ℕ :=
  (List.range (buf.length - 3)).map
    (fun i => pack4 (buf.getD i 0) (buf.getD (i + 1) 0)
                    (buf.getD (i + 2) 0) (buf.getD (i + 3) 0))

/-- Embedding of `np.unique(patterns, return_counts=True)`: the distinct packed values in
ascending order, each paired with its count via `List.count`. -/
def uniqueSorted (l : List ℕ) : List ℕ := l.dedup.insertionSort (· ≤ ·)

/-- One admissible refinement of `np.argsort(-counts)[:3]` over the
unique/count table, used only to build concrete record values: a stable sort
by descending count (ties keep the ascending-value order of `np.unique`),
take 3, pair with counts.  As with `sortIdxsByCount`, the real `np.argsort`
leaves the order among equal-count patterns unspecified; no claim about
pattern tie order is derived from this refinement. -/
def topPatterns (l : List ℕ) : List (ℕ × ℕ) :=
  (((uniqueSorted l).insertionSort (fun a b => l.count b ≤ l.count a)).take 3).map
    (fun v => (v, l.count v))

/-- Embedding of `compute_patterns`: top-3 2-byte and 4-byte patterns; empty list when the
buffer is shorter than the window (the hex rendering is presentation). -/
def compute_patterns (buf : ByteBuffer) : List (ℕ × ℕ) × List (ℕ × ℕ) :=
  ((if 2 ≤ buf.length then topPatterns (patterns2 buf) else []),
   (if 4 ≤ buf.length then topPatterns (patterns4 buf) else []))

/-! ## `compute_distribution` (scipy skewness / kurtosis) -/

/-- The `k`-th central moment of a list of rationals. -/
def centralMoment (l : List ℚ) (k : ℕ) : ℚ :=
  (l.map (fun x => (x - meanQ l) ^ k)).sum / l.length

/-- Embedding of `compute_distribution`: `scipy.stats.skew` (third standardized moment,
`m3 / m2^(3/2)`) and `scipy.stats.kurtosis` (Fisher definition,
`m4 / m2^2 - 3`).  When the second moment `m2` is zero (constant or empty
buffer) scipy's division `0 / 0` yields `NaN`, embedded as `none`. -/
noncomputable def compute_distribution (buf : ByteBuffer) : Option ℝ × Option ℝ :=
  let v := vals buf
  let m2 := centralMoment v 2
  if m2 = 0 then (none, none)
  else (some ((centralMoment v 3 : ℝ) / ((m2 : ℝ) * Real.sqrt (m2 : ℝ))),
        some ((centralMoment v 4 : ℝ) / (m2 : ℝ) ^ 2 - 3))

/-! ## `compute_autocorrelation` -/

/-- Pearson correlation coefficient `np.corrcoef(a, b)[0, 1]` of two
equal-length series: covariance over the product of standard deviations
(the `1/n` vs `1/(n-1)` normalizations cancel). -/
noncomputable def pearson (a b : List ℚ) : ℝ :=
  (((a.zip b).map (fun p => (p.1 - meanQ a) * (p.2 - meanQ b))).sum / a.length : ℚ) /
    (Real.sqrt (varQ a) * Real.sqrt (varQ b))

/-- One iteration of the `for lag in range(1, max_lag + 1)` loop:
`None` when `len(np_bytes) <= lag`; `0` when either slice has zero standard
deviation (`np.std(x) == 0` iff the variance is `0`); otherwise the Pearson
coefficient of `np_bytes[:-lag]` and `np_bytes[lag:]`. -/
noncomputable def acEntry (buf : ByteBuffer) (lag : ℕ) : Option ℝ :=
  if buf.length ≤ lag then none
  else
    let a := vals (buf.take (buf.length - lag))
    let b := vals (buf.drop lag)
    if varQ a = 0 ∨ varQ b = 0 then some 0
    else some (pearson a b)

/-- Embedding of `compute_autocorrelation(np_bytes, max_lag=10)`: the loop appends one
entry per lag 1..10. -/
noncomputable def compute_autocorrelation (buf : ByteBuffer) : List (Option ℝ) :=
  (List.range' 1 10).map (acEntry buf)

/-! ## `compute_even_odd_distribution` and `compute_ngram_entropy` -/

/-- Embedding of `compute_even_odd_distribution`: even count, odd count, and the ratio
`even / odd` (the `None` sentinel when `odd == 0`). -/
def compute_even_odd (buf : ByteBuffer) : ℕ × ℕ × Option ℚ :=
  let e := buf.countP (fun b => b.val % 2 = 0)
  let o := buf.countP (fun b => b.val % 2 = 1)
  (e, o, if o ≠ 0 then some ((e : ℚ) / (o : ℚ)) else none)

/-- All overlapping `n`-byte windows of the buffer (the strided view built in
`compute_ngram_entropy`). -/
def ngrams (buf : ByteBuffer) (n : ℕ) : List ByteBuffer :=
  (List.range (buf.length - n + 1)).map (fun i => (buf.drop i).take n)

/-- Embedding of `compute_ngram_entropy(file_bytes, n)`: 0 when the buffer is shorter than
`n`; otherwise Shannon entropy of the empirical distribution of the distinct
windows (every distinct window has positive count, so no zero-probability
filter is needed). -/
noncomputable def compute_ngram_entropy (buf : ByteBuffer) (n : ℕ) : ℝ :=
  if buf.length < n then 0
  else
    let w := ngrams buf n
    let counts := w.dedup.map (fun g => w.count g);
    -((counts.map (fun c => ((c : ℝ) / w.length) * Real.logb 2 ((c : ℝ) / w.length))).sum)

/-! ## `analyze_bytes` (the record assembler) -/

/-- A value stored in the statistics record (the Python dict values). -/
inductive StatValue : Type where
  | str : String → StatValue
  | int : ℤ → StatValue
  | nat : ℕ → StatValue
  | rat : ℚ → StatValue
  | real : ℝ → StatValue
  | entries : List (ℕ × ℕ) → StatValue
  | optReal : Option ℝ → StatValue
  | acList : List (Option ℝ) → StatValue
  | evenOdd : ℕ × ℕ × Option ℚ → StatValue

/-- Embedding of `analyze_bytes`: assembles every analyzer's output into the per-file
record, keeping the source's key order.  The filename / file-type labels are
taken as inputs (the `os.path` string handling of `compute_file_metadata` is
the out-of-scope loading collaborator per §1 of the spec).  On the empty
buffer `compute_basic_stats` raises (`int(NaN)`), so no record is produced:
embedded as `none`. -/
noncomputable def analyze_bytes (buf : ByteBuffer) (filename file_type : String) :
    Option (List (String × StatValue)) :=
  match compute_basic_stats buf with
  | none => none
  | some (mv, med, sd) =>
    some [("filename", .str filename),
          ("file_type", .str file_type),
          ("total_bytes", .nat (totalBytes buf)),
          ("unique_bytes", .nat (uniqueBytes buf)),
          ("most_common_bytes", .entries (most_common buf)),
          ("least_common_bytes", .entries (least_common buf)),
          ("mean_byte_value", .int mv),
          ("median_byte_value", .int med),
          ("std_dev_byte_value", .int sd),
          ("mean_rate_of_change", .int (compute_rate_of_change buf).1),
          ("median_rate_of_change", .int (compute_rate_of_change buf).2.1),
          ("std_dev_rate_of_change", .int (compute_rate_of_change buf).2.2),
          ("entropy", .real (compute_entropy (byteCounts buf) (totalBytes buf))),
          ("max_run_length", .nat (compute_runs buf).1),
          ("avg_run_length", .rat (compute_runs buf).2),
          ("common_2byte_patterns", .entries (compute_patterns buf).1),
          ("common_4byte_patterns", .entries (compute_patterns buf).2),
          ("skewness", .optReal (compute_distribution buf).1),
          ("kurtosis", .optReal (compute_distribution buf).2),
          ("autocorrelation", .acList (compute_autocorrelation buf)),
          ("even_odd_distribution", .evenOdd (compute_even_odd buf)),
          ("ngram_entropy", .real (compute_ngram_entropy buf 3))]

/-- The key list of the `stats` dict built by `analyze_bytes`, in source
order. -/
def statsKeys : List String :=
  ["filename", "file_type", "total_bytes", "unique_bytes",
   "most_common_bytes", "least_common_bytes",
   "mean_byte_value", "median_byte_value", "std_dev_byte_value",
   "mean_rate_of_change", "median_rate_of_change", "std_dev_rate_of_change",
   "entropy", "max_run_length", "avg_run_length",
   "common_2byte_patterns", "common_4byte_patterns",
   "skewness", "kurtosis", "autocorrelation", "even_odd_distribution",
   "ngram_entropy"]

/-- The field name that claim C3 (from the spec) says the record includes. -/
def nonzeroKey : String := "nonzero"

/-! ## Helper lemmas -/

/-- Summing a function mapped over `List.range` is a `Finset.range` sum. -/
lemma sum_map_list_range {M : Type*} [AddCommMonoid M] (g : ℕ → M) :
    ∀ n : ℕ, ((List.range n).map g).sum = ∑ i in Finset.range n, g i := by
  intro n
  induction n with
  | zero => simp
  | succ n ih =>
    rw [List.range_succ, List.map_append, List.sum_append, Finset.sum_range_succ, ih]
    simp

/-- Summing over a filtered `List.range` is a filtered `Finset.range` sum. -/
lemma sum_map_filter_list_range {M : Type*} [AddCommMonoid M] (g : ℕ → M)
    (p : ℕ → Prop) [DecidablePred p] :
    ∀ n : ℕ, (((List.range n).filter (fun v => p v)).map g).sum =
      ∑ v in (Finset.range n).filter p, g v := by
  intro n
  induction n with
  | zero => simp
  | succ n ih =>
    rw [List.range_succ, List.filter_append, List.map_append, List.sum_append,
      Finset.range_succ, Finset.filter_insert]
    by_cases hp : p n
    · rw [if_pos hp, Finset.sum_insert (by simp), ih]
      simp [hp, add_comm]
    · rw [if_neg hp, ih]
      simp [hp]

/-- The number of buckets hit by a buffer: a filtered list length as a
filtered `Finset` cardinality. -/
lemma length_filter_list_range (p : ℕ → Prop) [DecidablePred p] :
    ∀ n : ℕ, ((List.range n).filter (fun v => p v)).length =
      ((Finset.range n).filter p).card := by
  intro n
  induction n with
  | zero => simp
  | succ n ih =>
    rw [List.range_succ, List.filter_append, List.length_append,
      Finset.range_succ, Finset.filter_insert]
    by_cases hp : p n
    · rw [if_pos hp, Finset.card_insert_of_not_mem (by simp), ih]
      simp [hp]
    · rw [if_neg hp, ih]
      simp [hp]

/-- Mass conservation, `byte_counts.sum() == len(buffer)`: every byte lands in exactly one
bucket. -/
lemma totalBytes_eq_length (buf : ByteBuffer) : totalBytes buf = buf.length := by
  rw [totalBytes, byteCounts, sum_map_list_range]
  induction buf with
  | nil => simp [countOf]
  | cons x t ih =>
    have hx : x.val ∈ Finset.range 256 := Finset.mem_range.mpr x.isLt
    calc ∑ v in Finset.range 256, countOf (x :: t) v
        = ∑ v in Finset.range 256,
            (countOf t v + if x.val = v then 1 else 0) := by
          apply Finset.sum_congr rfl
          intro v _
          simp [countOf, List.countP_cons]
      _ = (x :: t).length := by
          rw [Finset.sum_add_distrib, ih, Finset.sum_ite_eq _ x.val (fun _ => 1), if_pos hx]
          simp [add_comm]

/-- Faithfulness of the `int(np.std(..))` embedding: for nonnegative `q`,
`sqrtFloorQ q` is exactly the floor (= truncation, as the value is
nonnegative) of the real square root of `q`. -/
lemma sqrtFloorQ_eq_floor_sqrt (q : ℚ) (h : 0 ≤ q) :
    (sqrtFloorQ q : ℤ) = ⌊Real.sqrt (q : ℝ)⌋ := by
  have hfl : (0 : ℤ) ≤ ⌊q⌋ := Int.floor_nonneg.mpr h
  have hmq : ((⌊q⌋.toNat : ℕ) : ℚ) ≤ q := by
    have h1 : ((⌊q⌋.toNat : ℤ) : ℚ) ≤ q := by
      rw [Int.toNat_of_nonneg hfl]
      exact Int.floor_le q
    exact_mod_cast h1
  have hqm : q < ((⌊q⌋.toNat : ℕ) : ℚ) + 1 := by
    have h1 : q < ((⌊q⌋ : ℤ) : ℚ) + 1 := Int.lt_floor_add_one q
    have h2 : ((⌊q⌋.toNat : ℕ) : ℚ) = ((⌊q⌋ : ℤ) : ℚ) := by
      exact_mod_cast Int.toNat_of_nonneg hfl
    linarith
  symm
  rw [sqrtFloorQ, Int.floor_eq_iff]
  constructor
  · calc ((Nat.sqrt ⌊q⌋.toNat : ℤ) : ℝ) = ((Nat.sqrt ⌊q⌋.toNat : ℕ) : ℝ) := by
          push_cast
          ring
      _ ≤ Real.sqrt ((⌊q⌋.toNat : ℕ) : ℝ) := Real.nat_sqrt_le_real_sqrt
      _ ≤ Real.sqrt (q : ℝ) := Real.sqrt_le_sqrt (by exact_mod_cast hmq)
  · have hq2 : (q : ℝ) < ((Nat.sqrt ⌊q⌋.toNat + 1 : ℕ) : ℝ) ^ 2 := by
      have h1 : (q : ℝ) < ((⌊q⌋.toNat : ℕ) : ℝ) + 1 := by exact_mod_cast hqm
      have h2 : ⌊q⌋.toNat + 1 ≤ (Nat.sqrt ⌊q⌋.toNat + 1) ^ 2 := by
        have h3 := Nat.lt_succ_sqrt' ⌊q⌋.toNat
        simpa [Nat.succ_eq_add_one] using h3
      have h4 : ((⌊q⌋.toNat : ℕ) : ℝ) + 1 ≤ ((Nat.sqrt ⌊q⌋.toNat + 1 : ℕ) : ℝ) ^ 2 := by
        exact_mod_cast h2
      linarith
    have h5 := (Real.sqrt_lt' (x := (q : ℝ))
      (y := ((Nat.sqrt ⌊q⌋.toNat + 1 : ℕ) : ℝ))
      (by exact_mod_cast Nat.succ_pos (Nat.sqrt ⌊q⌋.toNat))).mpr hq2
    calc Real.sqrt (q : ℝ) < ((Nat.sqrt ⌊q⌋.toNat + 1 : ℕ) : ℝ) := h5
      _ = ((Nat.sqrt ⌊q⌋.toNat : ℤ) : ℝ) + 1 := by
          push_cast
          ring

/-! ## Claim C6: frequency table shape and mass conservation -/

/-- C6: for every buffer the frequency table has exactly 256 buckets, its
`total` equals the buffer length, the counts sum to `total`, and for the
empty buffer every count is zero (so `total = 0`). -/
theorem frequency_table_shape_and_total (buf : ByteBuffer) :
    (byteCounts buf).length = 256 ∧
    totalBytes buf = buf.length ∧
    (byteCounts buf).sum = totalBytes buf ∧
    byteCounts [] = List.replicate 256 0 := by
  refine ⟨by simp [byteCounts], totalBytes_eq_length buf, rfl, ?_⟩
  show (List.range 256).map (countOf []) = List.replicate 256 0
  have hmap : (List.range 256).map (countOf []) =
      (List.range 256).map (fun _ => (0 : ℕ)) :=
    List.map_congr_left (fun a _ => rfl)
  rw [hmap, List.map_const']
  simp

/-! ## Claim C8: big-endian 4-byte packing round-trips -/

/-- C8: unpacking the big-endian 32-bit integer that the pattern analyzer
packs a 4-byte window into recovers the original 4 bytes exactly (hence the
packing is injective on 4-byte windows). -/
theorem pack4_unpack4_roundtrip (a b c d : Byte) :
    unpack4 (pack4 a b c d) = (a.val, b.val, c.val, d.val) := by
  obtain ⟨a, ha⟩ := a
  obtain ⟨b, hb⟩ := b
  obtain ⟨c, hc⟩ := c
  obtain ⟨d, hd⟩ := d
  simp only [pack4, unpack4, Prod.mk.injEq]
  refine ⟨?_, ?_, ?_, ?_⟩ <;> omega

/-! ## Claim C1: totality of the analyzers -/

/-- Counterexample to C1: on the empty buffer the basic-stats analyzer fails
(`int(np.mean([]))` is `int(NaN)`, which raises `ValueError`), and on the
constant buffer `[5, 5]` the skewness that is assembled into the record is
`NaN` (zero second moment). -/
theorem basic_stats_error_on_empty :
    compute_basic_stats [] = none ∧ (compute_distribution [5, 5]).1 = none := by
  constructor
  · rfl
  · have hvar : centralMoment (vals [5, 5]) 2 = 0 := by
      norm_num [centralMoment, vals, meanQ]
    simp [compute_distribution, hvar]

/-- C1 (amended): every analyzer except basic stats and skewness/kurtosis is
total with the documented sentinels on the empty buffer; the basic-stats
triple fails exactly on the empty buffer, and skewness/kurtosis are `NaN`
exactly when the second central moment is zero (empty or constant buffer). -/
theorem analyzers_total_except_basic_and_moments (buf : ByteBuffer) :
    (compute_basic_stats buf = none ↔ buf = []) ∧
    ((compute_distribution buf).1 = none ↔ centralMoment (vals buf) 2 = 0) ∧
    ((compute_distribution buf).2 = none ↔ centralMoment (vals buf) 2 = 0) ∧
    compute_rate_of_change [] = (0, 0, 0) ∧
    compute_entropy (byteCounts []) (totalBytes []) = 0 ∧
    compute_runs [] = (0, 0) ∧
    compute_patterns [] = ([], []) ∧
    compute_autocorrelation [] = List.replicate 10 none ∧
    (compute_even_odd []).2.2 = none := by
  refine ⟨?_, ?_, ?_, rfl, ?_, rfl, rfl, ?_, rfl⟩
  · cases buf <;> simp [compute_basic_stats]
  · by_cases h : centralMoment (vals buf) 2 = 0 <;> simp [compute_distribution, h]
  · by_cases h : centralMoment (vals buf) 2 = 0 <;> simp [compute_distribution, h]
  · simp [compute_entropy, totalBytes_eq_length]
  · simp [compute_autocorrelation, acEntry, List.range', List.replicate]

/-! ## Claim C2: rate-of-change statistics -/

/-- Zip-with-tail maps are positional-index maps. -/
lemma zip_tail_map_eq_range {α β : Type*} (d : α) (g : α → α → β) :
    ∀ l : List α, (l.zip l.tail).map (fun p => g p.1 p.2) =
      (List.range (l.length - 1)).map (fun i => g (l.getD i d) (l.getD (i + 1) d)) := by
  intro l
  induction l with
  | nil => simp
  | cons a t ih =>
    cases t with
    | nil => simp
    | cons b t2 =>
      have hlen : (a :: b :: t2).length - 1 = ((b :: t2).length - 1) + 1 := by simp
      calc ((a :: b :: t2).zip (a :: b :: t2).tail).map (fun p => g p.1 p.2)
          = g a b :: (((b :: t2).zip (b :: t2).tail).map (fun p => g p.1 p.2)) := by
            simp [List.zip_cons_cons]
        _ = g a b :: ((List.range ((b :: t2).length - 1)).map
              (fun i => g ((b :: t2).getD i d) ((b :: t2).getD (i + 1) d))) := by
            rw [ih]
        _ = (List.range ((a :: b :: t2).length - 1)).map
              (fun i => g ((a :: b :: t2).getD i d) ((a :: b :: t2).getD (i + 1) d)) := by
            rw [hlen, List.range_succ_eq_map, List.map_cons, List.map_map]
            simp [Function.comp_def]

/-- Counterexample to C2: on the buffer `[1, 0]` the code's mean rate of
change is `255` (the `uint8` difference wraps), while the claim's signed
first difference gives `-1`. -/
theorem rate_of_change_not_signed :
    (compute_rate_of_change [1, 0]).1 = 255 ∧
    truncQ (meanQ ((signedDiffs [1, 0]).map (fun z : ℤ => (z : ℚ)))) = -1 ∧
    (compute_rate_of_change [1, 0]).1 ≠
      truncQ (meanQ ((signedDiffs [1, 0]).map (fun z : ℤ => (z : ℚ)))) := by
  have h1 : (compute_rate_of_change [1, 0]).1 = 255 := by
    norm_num [compute_rate_of_change, u8diff, meanQ, medianQ, varQ, truncQ,
      sqrtFloorQ, List.insertionSort, List.orderedInsert, Nat.sqrt]
  have h2 : truncQ (meanQ ((signedDiffs [1, 0]).map (fun z : ℤ => (z : ℚ)))) = -1 := by
    norm_num [signedDiffs, meanQ, truncQ, Int.ceil_neg, Int.floor_one]
  refine ⟨h1, h2, ?_⟩
  rw [h1, h2]
  decide

/-- C2 (amended): for buffers of at least 2 bytes the rate-of-change
statistics are the integer-truncated mean, median and standard deviation of
the *modulo-256 wrapped* (unsigned) first-difference sequence
`diff[i] = (buffer[i+1] - buffer[i]) mod 256`; for shorter buffers all three
are 0. -/
theorem rate_of_change_stats_mod256 (buf : ByteBuffer) :
    compute_rate_of_change buf =
      if 2 ≤ buf.length then
        (truncQ (meanQ (wrappedDiffsQ buf)), truncQ (medianQ (wrappedDiffsQ buf)),
         (sqrtFloorQ (varQ (wrappedDiffsQ buf)) : ℤ))
      else (0, 0, 0) := by
  have hD : (u8diff buf).map (fun n : ℕ => (n : ℚ)) = wrappedDiffsQ buf := by
    rw [u8diff, List.map_map]
    rw [show ((fun n : ℕ => (n : ℚ)) ∘ fun p : Byte × Byte =>
          (256 + p.2.val - p.1.val) % 256) = fun p : Byte × Byte =>
          (((256 + p.2.val - p.1.val) % 256 : ℕ) : ℚ) from rfl]
    rw [zip_tail_map_eq_range (0 : Byte)
      (fun x y : Byte => (((256 + y.val - x.val) % 256 : ℕ) : ℚ)) buf]
    rfl
  have hDlen : (wrappedDiffsQ buf).length = buf.length - 1 := by
    simp [wrappedDiffsQ]
  simp only [compute_rate_of_change, hD]
  by_cases h2 : 2 ≤ buf.length
  · rw [if_pos (by rw [hDlen]; omega), if_pos h2]
  · rw [if_neg (by rw [hDlen]; omega), if_neg h2]

/-! ## Claim C3: no `nonzero` statistic in the record -/

/-- The number of distinct byte values present equals the number of nonzero
histogram buckets. -/
lemma uniqueBytes_eq_dedup_length (buf : ByteBuffer) :
    uniqueBytes buf = buf.dedup.length := by
  rw [uniqueBytes, nonZeroIdxs,
    length_filter_list_range (fun v => 0 < countOf buf v) 256, ← List.card_toFinset]
  have himg : (Finset.range 256).filter (fun v => 0 < countOf buf v) =
      buf.toFinset.image Fin.val := by
    ext v
    simp only [Finset.mem_filter, Finset.mem_range, Finset.mem_image, List.mem_toFinset]
    constructor
    · rintro ⟨hv, hc⟩
      rw [countOf] at hc
      obtain ⟨b, hb, hbv⟩ := List.countP_pos_iff.mp hc
      exact ⟨b, hb, by simpa using hbv⟩
    · rintro ⟨b, hb, rfl⟩
      refine ⟨b.isLt, ?_⟩
      rw [countOf]
      exact List.countP_pos_iff.mpr ⟨b, hb, by simp⟩
  rw [himg, Finset.card_image_of_injective _ Fin.val_injective]

/-- Counterexample to C3: the assembled record has no `nonzero` key at all
(its key set is fixed, and contains `total_bytes` and `unique_bytes` only). -/
theorem no_nonzero_key : statsKeys.contains nonzeroKey = false := by rfl

/-- C3 (amended): the record's key set is exactly `statsKeys` (for every
buffer on which a record is produced), which contains no `nonzero` field
counting nonzero-valued byte positions; the `unique` statistic counts
distinct byte *values* present. -/
theorem record_keys_no_nonzero (buf : ByteBuffer) (fn ft : String) :
    (analyze_bytes buf fn ft).map (List.map Prod.fst) =
      (if buf = [] then none else some statsKeys) ∧
    statsKeys.contains nonzeroKey = false ∧
    uniqueBytes buf = buf.dedup.length := by
  refine ⟨?_, rfl, uniqueBytes_eq_dedup_length buf⟩
  cases buf with
  | nil => simp [analyze_bytes, compute_basic_stats]
  | cons a t => simp [analyze_bytes, compute_basic_stats, statsKeys]

/-! ## Claim C9: the assembler is deterministic -/

/-- C9: two runs of the assembler on the same buffer and labels produce
records equal in every field, including the ordering of the top-k byte and
pattern lists (the embedding is a pure function; there is no hidden state). -/
theorem assembler_deterministic (b₁ b₂ : ByteBuffer) (fn₁ fn₂ ft₁ ft₂ : String)
    (hb : b₁ = b₂) (hfn : fn₁ = fn₂) (hft : ft₁ = ft₂) :
    analyze_bytes b₁ fn₁ ft₁ = analyze_bytes b₂ fn₂ ft₂ ∧
    most_common b₁ = most_common b₂ ∧
    least_common b₁ = least_common b₂ ∧
    compute_patterns b₁ = compute_patterns b₂ := by
  subst hb
  subst hfn
  subst hft
  exact ⟨rfl, rfl, rfl, rfl⟩

/-- Witness for C9 at a concrete buffer and labels. -/
theorem assembler_deterministic_witness :
    analyze_bytes [0] "f" ".bin" = analyze_bytes [0] "f" ".bin" ∧
    most_common [0] = most_common [0] ∧
    least_common [0] = least_common [0] ∧
    compute_patterns [0] = compute_patterns [0] :=
  assembler_deterministic [0] [0] "f" "f" ".bin" ".bin" rfl rfl rfl

/-! ## Claim C5: autocorrelation lags -/

/-- Positional access into the autocorrelation list hits the loop iteration
for lag `i + 1`. -/
lemma compute_autocorrelation_getD (buf : ByteBuffer) (i : ℕ) (h : i < 10) :
    (compute_autocorrelation buf).getD i none = acEntry buf (1 + i) := by
  rw [compute_autocorrelation, List.getD_eq_getElem?_getD, List.getElem?_map,
    List.getElem?_range' 1 1 h]
  simp

/-- C5: the autocorrelation sequence has exactly 10 positionally indexed
entries, and the entry at position `L - 1` (for lag `L = i + 1`) is the null
sentinel when `n ≤ L`, the zero sentinel when either subsequence
`buffer[0 : n-L]` or `buffer[L : n]` has zero variance, and otherwise the
Pearson correlation coefficient of the two subsequences. -/
theorem autocorrelation_lags (buf : ByteBuffer) (i : Fin 10) :
    (compute_autocorrelation buf).length = 10 ∧
    (compute_autocorrelation buf).getD i.val none =
      (if buf.length ≤ i.val + 1 then none
       else if varQ (vals (buf.take (buf.length - (i.val + 1)))) = 0 ∨
              varQ (vals (buf.drop (i.val + 1))) = 0 then some 0
       else some (pearson (vals (buf.take (buf.length - (i.val + 1))))
                          (vals (buf.drop (i.val + 1))))) := by
  constructor
  · simp [compute_autocorrelation]
  · rw [compute_autocorrelation_getD buf i.val i.isLt, acEntry]
    rw [Nat.add_comm 1 i.val]

/-! ## Claim C7: Shannon entropy formula -/

/-- C7: the entropy statistic equals `-Σ p(b)·log2(p(b))` over exactly the
byte values with nonzero count, with `p(b) = count(b) / total` and
`total = len(buffer)`; for the empty buffer it is 0. -/
theorem entropy_shannon_formula (buf : ByteBuffer) :
    compute_entropy (byteCounts buf) (totalBytes buf) =
      -(∑ v in (Finset.range 256).filter (fun v => 0 < countOf buf v),
        ((countOf buf v : ℝ) / (buf.length : ℝ)) *
          Real.logb 2 ((countOf buf v : ℝ) / (buf.length : ℝ))) ∧
    compute_entropy (byteCounts []) (totalBytes []) = 0 := by
  constructor
  · rw [totalBytes_eq_length]
    by_cases h : 0 < buf.length
    · rw [compute_entropy, if_pos h, byteCounts, List.filter_map, List.map_map]
      rw [show ((fun c : ℕ => decide (0 < c)) ∘ countOf buf) =
            (fun v : ℕ => decide (0 < countOf buf v)) from rfl]
      simp only [Function.comp_def]
      rw [sum_map_filter_list_range
          (fun v => ((countOf buf v : ℝ) / (buf.length : ℝ)) *
            Real.logb 2 ((countOf buf v : ℝ) / (buf.length : ℝ)))
          (fun v => 0 < countOf buf v) 256]
    · rw [compute_entropy, if_neg h]
      have hbuf : buf = [] := List.length_eq_zero.mp (by omega)
      subst hbuf
      simp [countOf]
  · simp [compute_entropy, totalBytes_eq_length]

/-! ## Claim C10: run decomposition partitions the buffer -/

/-- The run boundaries are between 1 and `n - 1` (exclusive interior cut
points). -/
lemma runEnds_mem_bounds (buf : ByteBuffer) :
    ∀ e ∈ runEnds buf, 1 ≤ e ∧ e ≤ buf.length - 1 := by
  intro e he
  rw [runEnds] at he
  obtain ⟨i, hi, rfl⟩ := List.mem_map.mp he
  have := List.mem_range.mp (List.mem_of_mem_filter hi)
  omega

/-- The run boundaries are strictly increasing. -/
lemma runEnds_pairwise (buf : ByteBuffer) : (runEnds buf).Pairwise (· < ·) := by
  rw [runEnds]
  exact ((List.pairwise_lt_range _).filter _).map (· + 1)
    (fun a b hab => Nat.add_lt_add_right hab 1)

/-- The full boundary list `0 :: run_ends ++ [n]` is strictly increasing for
a nonempty buffer. -/
lemma runBounds_pairwise (buf : ByteBuffer) (h : buf ≠ []) :
    (runBounds buf).Pairwise (· < ·) := by
  have hn : 1 ≤ buf.length := by
    cases buf with
    | nil => exact absurd rfl h
    | cons a t => simp
  rw [runBounds, List.pairwise_cons]
  constructor
  · intro x hx
    rcases List.mem_append.mp hx with hx | hx
    · have := (runEnds_mem_bounds buf x hx).1
      omega
    · simp only [List.mem_singleton] at hx
      omega
  · rw [List.pairwise_append]
    refine ⟨runEnds_pairwise buf, by simp, ?_⟩
    intro a ha b hb
    simp only [List.mem_singleton] at hb
    subst hb
    have := (runEnds_mem_bounds buf a ha).2
    omega

/-- A `≤`-chain is below its last element. -/
lemma le_getLastD_of_chain (b : ℕ) (t : List ℕ) (h : List.Chain (· ≤ ·) b t) :
    b ≤ t.getLastD b := by
  induction t generalizing b with
  | nil => simp
  | cons c t2 ih =>
    rw [List.chain_cons] at h
    calc b ≤ c := h.1
      _ ≤ t2.getLastD c := ih c h.2
      _ = (c :: t2).getLastD b := (List.getLastD_cons b c t2).symm

/-- Telescoping: the adjacent differences of a `≤`-chain sum to last minus
first. -/
lemma adjDiffs_sum_of_chain (a : ℕ) (l : List ℕ) (h : List.Chain (· ≤ ·) a l) :
    (adjDiffs (a :: l)).sum = l.getLastD a - a := by
  induction l generalizing a with
  | nil => simp [adjDiffs]
  | cons b t ih =>
    rw [List.chain_cons] at h
    have hstep : adjDiffs (a :: b :: t) = (b - a) :: adjDiffs (b :: t) := by
      simp [adjDiffs, List.zip_cons_cons]
    rw [hstep, List.sum_cons, ih b h.2, List.getLastD_cons]
    have hbl : b ≤ t.getLastD b := le_getLastD_of_chain b t h.2
    omega

/-- Adjacent differences of a strictly increasing chain are positive. -/
lemma adjDiffs_pos_of_chain (a : ℕ) (l : List ℕ) (h : List.Chain (· < ·) a l) :
    ∀ d ∈ adjDiffs (a :: l), 1 ≤ d := by
  induction l generalizing a with
  | nil => simp [adjDiffs]
  | cons b t ih =>
    rw [List.chain_cons] at h
    intro d hd
    have hstep : adjDiffs (a :: b :: t) = (b - a) :: adjDiffs (b :: t) := by
      simp [adjDiffs, List.zip_cons_cons]
    rw [hstep] at hd
    rcases List.mem_cons.mp hd with rfl | hd
    · omega
    · exact ih b h.2 d hd

/-- A fold of `max` over naturals is bounded by the sum. -/
lemma foldr_max_le_sum (l : List ℕ) : l.foldr max 0 ≤ l.sum := by
  induction l with
  | nil => simp
  | cons a t ih =>
    simp only [List.foldr_cons, List.sum_cons]
    omega

/-- Every element is at most the fold of `max`. -/
lemma le_foldr_max (l : List ℕ) (x : ℕ) (hx : x ∈ l) : x ≤ l.foldr max 0 := by
  induction l with
  | nil => exact absurd hx (List.not_mem_nil x)
  | cons a t ih =>
    rcases List.mem_cons.mp hx with rfl | hx
    · simp only [List.foldr_cons]
      omega
    · have := ih hx
      simp only [List.foldr_cons]
      omega

/-- Shifting every boundary by one does not change the adjacent
differences. -/
lemma adjDiffs_map_succ (l : List ℕ) : adjDiffs (l.map (· + 1)) = adjDiffs l := by
  induction l with
  | nil => rfl
  | cons x t ih =>
    cases t with
    | nil => rfl
    | cons y t2 =>
      have h1 : adjDiffs ((x :: y :: t2).map (· + 1)) =
          ((y + 1) - (x + 1)) :: adjDiffs ((y :: t2).map (· + 1)) := by
        simp [adjDiffs, List.zip_cons_cons]
      have h2 : adjDiffs (x :: y :: t2) = (y - x) :: adjDiffs (y :: t2) := by
        simp [adjDiffs, List.zip_cons_cons]
      rw [h1, ih, h2]
      congr 1
      omega

/-- Peeling one byte off the front shifts all change positions by one and
adds a change at position 1 exactly when the first two bytes differ. -/
lemma runEnds_cons (a b : Byte) (t : ByteBuffer) :
    runEnds (a :: b :: t) =
      (if a = b then [] else [1]) ++ (runEnds (b :: t)).map (· + 1) := by
  rw [runEnds, runEnds]
  have hl1 : (a :: b :: t).length - 1 = ((b :: t).length - 1) + 1 := by simp
  rw [hl1, List.range_succ_eq_map, List.filter_cons, List.filter_map]
  have hcomp : ((fun i => decide ((a :: b :: t).getD i 0 ≠ (a :: b :: t).getD (i + 1) 0))
      ∘ Nat.succ) =
      (fun i => decide ((b :: t).getD i 0 ≠ (b :: t).getD (i + 1) 0)) := rfl
  rw [hcomp]
  by_cases hab : a = b
  · simp [hab, List.map_map]
  · simp [hab, List.map_map]

/-- Refinement: the diff-of-boundaries computation of `compute_runs` produces
exactly the maximal-run decomposition of the buffer. -/
lemma runLengthsList_eq_maximal : ∀ buf : ByteBuffer, buf ≠ [] →
    runLengthsList buf = maximalRunLengths buf := by
  intro buf
  induction buf with
  | nil =>
    intro h
    exact absurd rfl h
  | cons a t ih =>
    intro _
    cases t with
    | nil =>
      show runLengthsList [a] = maximalRunLengths [a]
      simp [runLengthsList, runBounds, runEnds, adjDiffs, maximalRunLengths]
    | cons b t2 =>
      have hlen : (a :: b :: t2).length = (b :: t2).length + 1 := by simp
      have hbt := ih (by simp)
      rw [runLengthsList, runBounds, runEnds_cons, hlen]
      by_cases hab : a = b
      · rw [if_pos hab]
        have hshape : ((runEnds (b :: t2)).map (· + 1) ++ [(b :: t2).length + 1]) =
            ((runEnds (b :: t2)) ++ [(b :: t2).length]).map (· + 1) := by
          simp
        rw [List.nil_append, hshape]
        obtain ⟨y, t3, hy⟩ : ∃ y t3,
            (runEnds (b :: t2)) ++ [(b :: t2).length] = y :: t3 := by
          cases hE : (runEnds (b :: t2)) ++ [(b :: t2).length] with
          | nil => exact absurd hE (by simp)
          | cons y t3 => exact ⟨y, t3, rfl⟩
        rw [hy]
        have hleft : adjDiffs (0 :: (y :: t3).map (· + 1)) =
            (y + 1) :: adjDiffs ((y :: t3).map (· + 1)) := by
          simp [adjDiffs, List.zip_cons_cons]
        rw [hleft, adjDiffs_map_succ]
        have hright : runLengthsList (b :: t2) = y :: adjDiffs (y :: t3) := by
          rw [runLengthsList, runBounds, hy]
          simp [adjDiffs, List.zip_cons_cons]
        rw [maximalRunLengths, if_pos hab, ← hbt, hright]
      · rw [if_neg hab]
        simp only [List.nil_append, List.cons_append]
        have hshape : ((runEnds (b :: t2)).map (· + 1) ++ [(b :: t2).length + 1]) =
            ((runEnds (b :: t2)) ++ [(b :: t2).length]).map (· + 1) := by
          simp
        rw [hshape]
        have h0 : adjDiffs
            (0 :: 1 :: ((runEnds (b :: t2)) ++ [(b :: t2).length]).map (· + 1)) =
            1 :: adjDiffs
              (1 :: ((runEnds (b :: t2)) ++ [(b :: t2).length]).map (· + 1)) := by
          simp [adjDiffs, List.zip_cons_cons]
        rw [h0]
        have h1 : (1 : ℕ) :: ((runEnds (b :: t2)) ++ [(b :: t2).length]).map (· + 1) =
            ((0 : ℕ) :: ((runEnds (b :: t2)) ++ [(b :: t2).length])).map (· + 1) := by
          simp
        rw [h1, adjDiffs_map_succ]
        rw [maximalRunLengths, if_neg hab, ← hbt, runLengthsList, runBounds]

/-- C10: for a nonempty buffer the computed run lengths sum to the buffer
length (the decomposition partitions the buffer), `avg_run_length` is the
buffer length divided by the number of runs, and the maximal run length is
between 1 and the buffer length. -/
theorem runs_partition (buf : ByteBuffer) (h : buf ≠ []) :
    runLengthsList buf = maximalRunLengths buf ∧
    (runLengthsList buf).sum = buf.length ∧
    (compute_runs buf).2 = (buf.length : ℚ) / ((runLengthsList buf).length : ℚ) ∧
    1 ≤ (compute_runs buf).1 ∧
    (compute_runs buf).1 ≤ buf.length := by
  have hne : buf.isEmpty = false := by
    cases buf with
    | nil => exact absurd rfl h
    | cons a t => rfl
  have hpw := runBounds_pairwise buf h
  rw [runBounds] at hpw
  have hchain_lt : List.Chain (· < ·) 0 (runEnds buf ++ [buf.length]) :=
    List.chain_iff_pairwise.mpr hpw
  have hchain_le : List.Chain (· ≤ ·) 0 (runEnds buf ++ [buf.length]) :=
    List.Chain.imp (fun a b hab => Nat.le_of_lt hab) hchain_lt
  have hsum : (runLengthsList buf).sum = buf.length := by
    rw [runLengthsList, runBounds, adjDiffs_sum_of_chain 0 _ hchain_le]
    simp [List.getLastD_concat]
  have hlen_pos : 1 ≤ (runLengthsList buf).length := by
    rw [runLengthsList, runBounds, adjDiffs, List.length_map, List.length_zip]
    simp
  refine ⟨runLengthsList_eq_maximal buf h, hsum, ?_, ?_, ?_⟩
  · rw [compute_runs, if_neg (by simp [hne])]
    show meanQ ((runLengthsList buf).map (fun n : ℕ => (n : ℚ))) = _
    rw [meanQ, List.length_map, ← Nat.cast_list_sum, hsum]
  · rw [compute_runs, if_neg (by simp [hne])]
    show 1 ≤ (runLengthsList buf).foldr max 0
    obtain ⟨x, t, hxt⟩ : ∃ x t, runLengthsList buf = x :: t := by
      cases hL : runLengthsList buf with
      | nil => rw [hL] at hlen_pos; simp at hlen_pos
      | cons x t => exact ⟨x, t, rfl⟩
    have hx_mem : x ∈ runLengthsList buf := by
      rw [hxt]
      exact List.mem_cons_self x t
    have hx_pos : 1 ≤ x := by
      have := adjDiffs_pos_of_chain 0 (runEnds buf ++ [buf.length]) hchain_lt
      rw [← runBounds, ← runLengthsList] at this
      exact this x hx_mem
    calc 1 ≤ x := hx_pos
      _ ≤ (runLengthsList buf).foldr max 0 := le_foldr_max _ x hx_mem
  · rw [compute_runs, if_neg (by simp [hne])]
    show (runLengthsList buf).foldr max 0 ≤ buf.length
    calc (runLengthsList buf).foldr max 0 ≤ (runLengthsList buf).sum :=
          foldr_max_le_sum _
      _ = buf.length := hsum

/-- Witness for C10 on the concrete buffer `[0, 0, 1]` (runs `[0,0]`, `[1]`;
lengths 2 and 1). -/
theorem runs_partition_witness :
    runLengthsList [0, 0, 1] = maximalRunLengths [0, 0, 1] ∧
    (runLengthsList [0, 0, 1]).sum = ([0, 0, 1] : ByteBuffer).length ∧
    (compute_runs [0, 0, 1]).2 =
      ((([0, 0, 1] : ByteBuffer).length : ℚ)) / ((runLengthsList [0, 0, 1]).length : ℚ) ∧
    1 ≤ (compute_runs [0, 0, 1]).1 ∧
    (compute_runs [0, 0, 1]).1 ≤ ([0, 0, 1] : ByteBuffer).length :=
  runs_partition [0, 0, 1] (by simp)

/-! ## Claim C4: least-common selection -/

/-- The concrete `least_common` is the abstract selection applied to the
stable-sort refinement of `np.argsort`. -/
lemma least_common_eq_leastCommonOf (buf : ByteBuffer) :
    least_common buf = leastCommonOf buf (sortIdxsByCount buf (nonZeroIdxs buf)) := rfl

/-- The stable-sort refinement used for the concrete record is one admissible
`np.argsort` output. -/
lemma sortIdxsByCount_admissible (buf : ByteBuffer) (l : List ℕ) :
    IsArgsortBy (countOf buf) l (sortIdxsByCount buf l) := by
  constructor
  · exact List.perm_insertionSort _ l
  · haveI : IsTotal ℕ (fun a b => countOf buf a ≤ countOf buf b) :=
      ⟨fun a b => Nat.le_total _ _⟩
    haveI : IsTrans ℕ (fun a b => countOf buf a ≤ countOf buf b) :=
      ⟨fun a b c hab hbc => Nat.le_trans hab hbc⟩
    exact List.sorted_insertionSort _ l

set_option maxRecDepth 4000 in
/-- Counterexample to C4's tie-break clause: on the buffer `[0, 1]` both byte
values have count 1, and both index orders `[0, 1]` and `[1, 0]` satisfy the
`np.argsort` contract — numpy's default quicksort is not stable, so the
program fixes neither.  Under the admissible output `[1, 0]` the
least-common list puts byte `0x1` before byte `0x0` despite equal counts, so
the program does not guarantee that equal-count ties prefer the lower byte
value. -/
theorem least_common_tie_break_not_guaranteed :
    IsArgsortBy (countOf [0, 1]) (nonZeroIdxs [0, 1]) [1, 0] ∧
    IsArgsortBy (countOf [0, 1]) (nonZeroIdxs [0, 1]) [0, 1] ∧
    leastCommonOf [0, 1] [1, 0] = [(1, 1), (0, 1)] ∧
    countOf [0, 1] 0 = countOf [0, 1] 1 :=
  ⟨⟨by decide, by decide⟩, ⟨by decide, by decide⟩, by decide, by decide⟩

/-- C4 (amended): for every buffer and every admissible `np.argsort` output
over the nonzero byte values, the least-common selection returns
`min 3 u` entries where `u` is the number of byte values with nonzero count,
every returned entry carries its true, nonzero count (zero-count entries
never appear), and entries are ordered by ascending count; the order among
equal-count entries is not guaranteed (the default quicksort argsort is not
stable), so no tie-break toward the lower byte value is promised. -/
theorem least_common_of_any_argsort (buf : ByteBuffer) (s : List ℕ)
    (hs : IsArgsortBy (countOf buf) (nonZeroIdxs buf) s) :
    (leastCommonOf buf s).length = min 3 (uniqueBytes buf) ∧
    List.Forall (fun e : ℕ × ℕ => 0 < e.2 ∧ e.2 = countOf buf e.1)
      (leastCommonOf buf s) ∧
    (leastCommonOf buf s).Pairwise (fun a b : ℕ × ℕ => a.2 ≤ b.2) := by
  obtain ⟨hperm, hsorted⟩ := hs
  refine ⟨?_, ?_, ?_⟩
  · rw [leastCommonOf, List.length_map, List.length_take, uniqueBytes,
      hperm.length_eq]
  · rw [List.forall_iff_forall_mem]
    intro e he
    rw [leastCommonOf] at he
    obtain ⟨v, hv, rfl⟩ := List.mem_map.mp he
    have hv3 : v ∈ nonZeroIdxs buf := hperm.subset (List.mem_of_mem_take hv)
    have hv4 := List.of_mem_filter hv3
    exact ⟨by simpa using hv4, rfl⟩
  · rw [leastCommonOf, List.pairwise_map]
    exact hsorted.sublist (List.take_sublist 3 s)

set_option maxRecDepth 4000 in
/-- Witness for C4 at the concrete buffer `[0, 1]` with the admissible
argsort output `[0, 1]`. -/
theorem least_common_of_any_argsort_witness :
    IsArgsortBy (countOf [0, 1]) (nonZeroIdxs [0, 1]) ([0, 1] : List ℕ) ∧
    ((leastCommonOf [0, 1] ([0, 1] : List ℕ)).length = min 3 (uniqueBytes [0, 1]) ∧
     List.Forall (fun e : ℕ × ℕ => 0 < e.2 ∧ e.2 = countOf [0, 1] e.1)
       (leastCommonOf [0, 1] ([0, 1] : List ℕ)) ∧
     (leastCommonOf [0, 1] ([0, 1] : List ℕ)).Pairwise
       (fun a b : ℕ × ℕ => a.2 ≤ b.2)) :=
  ⟨⟨by decide, by decide⟩,
   least_common_of_any_argsort [0, 1] [0, 1] ⟨by decide, by decide⟩⟩
